import Mathlib

/-!
Verification of the material-planner core of `genshin.py` (class `HoyoLab`).

The Python source is shallowly embedded below:

* `process_item_iterative` (source lines 221-238): the tiered surplus
  redistribution walk over material chains.  The Python dictionary
  `good_result` is modelled as an association list `GoodMap` keyed by the
  normalized name; `dict[k]["num"] -= d` becomes a pure value update.
  The embedding additionally returns a trace of `RedistEvent`s recording,
  for each source position with positive `extra`, the cache state and
  whether the forward search was recomputed; the resulting map is the
  first component and is exactly the source's behaviour.
* `clean_up_materials` (lines 240-284): normalization, dedup, tier
  classification, chain building, and the call into the redistribution.
* `find_min_entity_needed` (lines 117-144): greedy minimum set cover.
  The `while` loop is embedded with a fuel argument; the top-level
  definition supplies fuel `catalog.length`, which is proved sufficient.
* `calculate_selected_materials` (lines 185-209): only the construction
  of the combined request list `calculate_list` is embedded (the claims
  concern its length); the per-chunk remote calls are external.
* `_req` (lines 56-66): the post-parse response handling.

Machine integers: Python ints are unbounded, so `Nat`/`Int` are used
directly.  Counts coming from the remote API (`num`, `lack_num`, `extra`
of a consumption record) are modelled as `Nat` (the API reports
non-negative counts); the computed `num` of a cleaned item is an `Int`
since it can go negative.  `int(extra / 3 ** d)` for `extra ≥ 0` is
Nat floor division.
-/

namespace GenshinMats

/-- A cleaned inventory item, the value stored in the Python dict
`cleaned_items` / `good_result`: fields `good`, `id`, `extra`, `num`
(source lines 251-256). -/
structure Item where
  good : String
  id : Nat
  extra : Nat
  num : Int
  deriving Repr, DecidableEq

/-- The Python dict `good_result` / `cleaned_items`, modelled as an
insertion-ordered association list keyed by normalized name. -/
abbrev GoodMap := List (String × Item)

/-- Dictionary lookup `m[k]`. -/
def lookupItem (m : GoodMap) (k : String) : Option Item :=
  (m.find? (fun p => p.1 = k)).map (·.2)

/-- The value `good_result[k]["extra"]` (0 if the key is absent; in the
Python code the key is always present at every use site). -/
def extraOf (m : GoodMap) (k : String) : Nat :=
  ((lookupItem m k).map Item.extra).getD 0

/-- The in-place update `good_result[k]["num"] -= d`. -/
def adjustNum (m : GoodMap) (k : String) (d : Int) : GoodMap :=
  m.map (fun p => if p.1 = k then (p.1, { p.2 with num := p.2.num - d }) else p)

/-- The inner `for i in range(start, len(item_list))` search of
`process_item_iterative` (source lines 231-234): first index at or after
`base` whose item has `extra == 0`, scanning the given suffix. -/
def findZeroExtra (m : GoodMap) (base : Nat) : List String → Option Nat
  | [] => none
  | name :: rest =>
    if extraOf m name = 0 then some base else findZeroExtra m (base + 1) rest

/-- Forward search for the next zero-extra item strictly after the
current position: Python's `for i in range(current_index + 1, len(item_list))`. -/
def scanForward (m : GoodMap) (chain : List String) (start : Nat) : Option Nat :=
  findZeroExtra m start (chain.drop start)

/-- The recompute condition of source line 229:
`next_valid_index is None or good_result[item_list[next_valid_index]]["extra"] == 0`. -/
def cacheIsStale (m : GoodMap) (chain : List String) (cache : Option Nat) : Bool :=
  match cache with
  | none => true
  | some j => extraOf m (chain.getD j "") = 0

/-- Trace record for one source position with `extra > 0` in
`process_item_iterative`: the position, the cached index and the cached
item's extra before the step, whether the forward search was recomputed,
and the adjusted target's name (when an adjustment happened). -/
structure RedistEvent where
  ci : Nat
  cacheBefore : Option Nat
  cachedExtraBefore : Option Nat
  recomputed : Bool
  target : Option String
  deriving Repr, DecidableEq

/-- One iteration of the `for current_index, sub_item in enumerate(item_list)`
loop body (source lines 226-238), returning the updated map, the carried
cache, and the trace event (emitted only when `extra > 0`). -/
def stepPos (m : GoodMap) (chain : List String) (cache : Option Nat)
    (ci : Nat) (name : String) : GoodMap × Option Nat × Option RedistEvent :=
  if 0 < extraOf m name then
    let recomputed := cacheIsStale m chain cache
    let cache' := if recomputed then scanForward m chain (ci + 1) else cache
    let ev : RedistEvent :=
      { ci := ci
        cacheBefore := cache
        cachedExtraBefore := cache.map (fun j => extraOf m (chain.getD j ""))
        recomputed := recomputed
        target := cache'.map (fun nvi => chain.getD nvi "") }
    match cache' with
    | some nvi =>
      (adjustNum m (chain.getD nvi "") ((extraOf m name / 3 ^ (nvi - ci) : Nat) : Int),
        some nvi, some ev)
    | none => (m, none, some ev)
  else (m, cache, none)

/-- The `enumerate(item_list)` loop of `process_item_iterative`, walking the
suffix of the chain starting at position `ci` (the suffix is always
`chain.drop ci` at every call). -/
def processPositions (chain : List String) (m : GoodMap) (cache : Option Nat)
    (ci : Nat) : List String → GoodMap × List RedistEvent
  | [] => (m, [])
  | name :: rest =>
    let (m', cache', ev?) := stepPos m chain cache ci name
    let (mf, evs) := processPositions chain m' cache' (ci + 1) rest
    (mf, ev?.toList ++ evs)

/-- One chain of the outer loop: `next_valid_index = None` then the
position walk (source lines 225-238). -/
def processChain (m : GoodMap) (chain : List String) : GoodMap × List RedistEvent :=
  processPositions chain m none 0 chain

/-- The outer `for item_list in materials_group_to_check` loop, threading
the mutated map and accumulating the trace. -/
def processChains (chains : List (List String))
    (acc : GoodMap × List RedistEvent) : GoodMap × List RedistEvent :=
  chains.foldl
    (fun acc chain =>
      let x := processChain acc.1 chain
      (x.1, acc.2 ++ x.2))
    acc

/-- `HoyoLab.process_item_iterative` (source lines 221-238), instrumented:
the first component is the mutated `good_result`, exactly as in the
source; the second is the trace of redistribution events. -/
def process_item_iterative (materials_group_to_check : List (List String))
    (good_result : GoodMap) : GoodMap × List RedistEvent :=
  processChains materials_group_to_check (good_result, [])

/-- The names adjusted (chosen as `next_valid_index` targets) during a run. -/
def targetsOf (trace : List RedistEvent) : List String :=
  trace.filterMap (·.target)

/-- ASCII model of Python's regex class `\w` (letters, digits, underscore).
The material names in this program are ASCII. -/
def isWordChar (c : Char) : Bool :=
  c.isAlphanum || c = '_'

/-- Python `str.capitalize()` (ASCII): first character uppercased, every
following character lowercased. -/
def pyCapitalize : List Char → List Char
  | [] => []
  | c :: cs => c.toUpper :: cs.map Char.toLower

/-- Python `str.strip(c)`: remove every leading and trailing occurrence
of the character. -/
def stripChar (c : Char) (l : List Char) : List Char :=
  ((l.dropWhile (· = c)).reverse.dropWhile (· = c)).reverse

/-- Separator class of the regex split `re.split(r"[- ]", ...)`. -/
def isSep (c : Char) : Bool :=
  c = '-' || c = ' '

/-- Python `re.split(r"[- ]", s)`: split at every dash or space, keeping
empty pieces between consecutive separators (n separators give n + 1 pieces). -/
def splitOnSep : List Char → List (List Char)
  | [] => [[]]
  | c :: cs =>
    if isSep c then [] :: splitOnSep cs
    else
      match splitOnSep cs with
      | [] => [[c]]
      | w :: ws => (c :: w) :: ws

/-- The name normalization of `clean_up_materials` (source lines 245-246):
strip surrounding double quotes, split on dash or space, capitalize each
word, join with a single space, then delete every non-word character. -/
def normalizeName (l : List Char) : List Char :=
  (List.intercalate [' '] ((splitOnSep (stripChar '"' l)).map pyCapitalize)).filter
    isWordChar

/-- String wrapper for `normalizeName`. -/
def normalizeNameStr (s : String) : String :=
  String.mk (normalizeName s.data)

/-- The tier classification of `clean_up_materials` (source lines 264-274),
as an if/elif chain on the material id: `some 4`, `some 3`, or `none`
(untiered). -/
def tierOf (id : Nat) : Option Nat :=
  if 114000 < id ∨ (104100 < id ∧ id < 104300) then some 4
  else if 104300 < id ∧ id < 113000 ∧ id ≠ 104319 then some 3
  else none

/-- A raw consumption record as consumed by `clean_up_materials`: the
fields `name`, `id`, `num`, `lack_num` of an `overall_consume` entry plus
the `extra` surplus attached in `calculate_selected_materials`.  The API
reports non-negative counts, hence `Nat` fields. -/
structure RawMaterial where
  name : String
  id : Nat
  num : Nat
  lack_num : Nat
  extra : Nat
  deriving Repr, DecidableEq

/-- One iteration of the dedup loop of `clean_up_materials` (source lines
244-256): normalize the name, compute `new_num = num - lack_num + extra`,
and insert or replace when the key is new or the new `num` is larger
(the replaced entry keeps its original dictionary position). -/
def insertRecord (acc : GoodMap) (material : RawMaterial) : GoodMap :=
  let good := normalizeNameStr material.name
  let newNum : Int := (material.num : Int) - material.lack_num + material.extra
  match lookupItem acc good with
  | none => acc ++ [(good, ⟨good, material.id, material.extra, newNum⟩)]
  | some old =>
    if newNum > old.num then
      acc.map (fun p =>
        if p.1 = good then (good, ⟨good, material.id, material.extra, newNum⟩) else p)
    else acc

/-- Structural worker for `chunkList`: the fuel (first argument) bounds
the number of chunks; `chunkList` supplies the list's length, which is
always enough since every chunk consumes at least one element. -/
def chunkListAux (k : Nat) : Nat → List α → List (List α)
  | _, [] => []
  | 0, _ :: _ => []
  | fuel + 1, a :: l => ((a :: l).take k) :: chunkListAux k fuel ((a :: l).drop k)

/-- Python slicing loop `[l[i:i + k] for i in range(0, len(l), k)]` with
`k > 0` (here `k` is the tier, 4 or 3): successive chunks of size `k`
(the last chunk may be shorter). -/
def chunkList (k : Nat) (l : List α) : List (List α) :=
  chunkListAux k l.length l

/-- Insertion of one element into a sorted list, placing it before the
first element it compares `le` to (so insertion after equal elements
never happens: the sort below is stable). -/
def insertSorted (le : α → α → Bool) (a : α) : List α → List α
  | [] => [a]
  | b :: l => if le a b then a :: b :: l else b :: insertSorted le a l

/-- Stable sort (insertion sort).  Python's `sorted` is also stable, and
a stable sort's output is uniquely determined by the comparison, so this
computes exactly `sorted(..., key=..., reverse=True)` when given the
corresponding descending comparison. -/
def stableSort (le : α → α → Bool) : List α → List α
  | [] => []
  | a :: l => insertSorted le a (stableSort le l)

/-- `HoyoLab.clean_up_materials` (source lines 240-284): dedup with name
normalization, stable sort by descending id, tier grouping (the
`defaultdict` is accessed for keys 4 then 3, so iteration order is 4 then
3), chunking into chains of the tier's size, per-chain reversal to
ascending-id order, global reversal of the chain list, then the
redistribution pass.  Returns the mutated `cleaned_items` mapping. -/
def clean_up_materials (materials : List RawMaterial) : GoodMap :=
  let cleaned_items := materials.foldl insertRecord []
  let sorted_cleaned_items :=
    stableSort (fun a b => b.id ≤ a.id) (cleaned_items.map (·.2))
  let four_tiers := sorted_cleaned_items.filter (fun it => tierOf it.id = some 4)
  let three_tiers := sorted_cleaned_items.filter (fun it => tierOf it.id = some 3)
  let materials_group_to_check :=
    ((chunkList 4 four_tiers).map (fun c => (c.map (·.good)).reverse)) ++
      ((chunkList 3 three_tiers).map (fun c => (c.map (·.good)).reverse))
  (process_item_iterative materials_group_to_check.reverse cleaned_items).1

/-- A synthesized character upgrade request (`_generate_item_data` for a
character, source lines 99-107): the avatar id and the attached weapon
sub-object (`none` models the initial empty dict `{}`).  The level and
skill fields are constants irrelevant to the claims and omitted. -/
structure AvatarReq where
  avatar_id : Nat
  weapon : Option Nat
  deriving Repr, DecidableEq

/-- A synthesized bare weapon upgrade request (`_generate_item_data` for a
weapon, source lines 108-115). -/
structure WeaponReq where
  weapon_id : Nat
  deriving Repr, DecidableEq

/-- An element of the combined request list (characters and weapons mixed). -/
abbrev CalcReq := AvatarReq ⊕ WeaponReq

/-- The construction of the local variable `calculate_list` in
`calculate_selected_materials` (source lines 191-207): replicate each
selected entity `count` times, positionally attach weapons onto the
character requests (the zip stops at the shorter list), then append the
longer list's tail — `avatar_body + avatar_body[len_weapons:]` when
characters are more numerous, else `avatar_body + weapon_body[len_avatars:]`.
The Python list replication aliases one dict per entity; the claims
concern only the list's length, so elements are modelled as values. -/
def calculate_list (avatars_to_select weapons_to_select : List Nat)
    (count : Nat) : List CalcReq :=
  let avatar_body := avatars_to_select.flatMap
    (fun a => List.replicate count ({ avatar_id := a, weapon := none } : AvatarReq))
  let weapon_body := weapons_to_select.flatMap
    (fun w => List.replicate count ({ weapon_id := w } : WeaponReq))
  let len_avatars := avatar_body.length
  let len_weapons := weapon_body.length
  let paired :=
    avatar_body.zipWith (fun a w => { a with weapon := some w.weapon_id }) weapon_body
      ++ avatar_body.drop len_weapons
  if len_weapons < len_avatars then
    paired.map Sum.inl ++ (paired.drop len_weapons).map Sum.inl
  else
    paired.map Sum.inl ++ (weapon_body.drop len_avatars).map Sum.inr

/-- `all_materials` of `find_min_entity_needed` (source lines 121-123):
union of every entity's material set. -/
def unionMats (l : List (Nat × List Nat)) : Finset Nat :=
  l.foldl (fun acc p => acc ∪ p.2.toFinset) ∅

/-- One iteration of the inner candidate scan of `find_min_entity_needed`
(source lines 134-138): replace the best on a strictly larger new
coverage (so the first entity encountered wins ties). -/
def selectStep (covered : Finset Nat) (best : Option Nat × Finset Nat)
    (p : Nat × List Nat) : Option Nat × Finset Nat :=
  let new_coverage := p.2.toFinset \ covered
  if best.2.card < new_coverage.card then (some p.1, new_coverage) else best

/-- The inner candidate scan of `find_min_entity_needed` (source lines
130-138): fold over the remaining entities carrying `(best_entity,
best_coverage)`, starting from `(None, set())`. -/
def selectBest (covered : Finset Nat) (remaining : List (Nat × List Nat)) :
    Option Nat × Finset Nat :=
  remaining.foldl (selectStep covered) (none, ∅)

/-- The `while covered_materials != all_materials` loop of
`find_min_entity_needed` (source lines 129-143), with an explicit fuel
bound on the number of iterations.  `none` models both fuel exhaustion
(never reached with fuel `|catalog|`, see the termination theorem) and
the `int(None)` TypeError Python would raise when no candidate adds
coverage. -/
def greedyAux (allMats : Finset Nat) :
    Nat → List (Nat × List Nat) → Finset Nat → List Nat → Option (List Nat)
  | 0, _, covered, selected =>
    if covered = allMats then some selected else none
  | fuel + 1, remaining, covered, selected =>
    if covered = allMats then some selected
    else
      match selectBest covered remaining with
      | (some e, cov) =>
        greedyAux allMats fuel (remaining.eraseP (fun p => p.1 == e))
          (covered ∪ cov) (selected ++ [e])
      | (none, _) => none

/-- `HoyoLab.find_min_entity_needed` (source lines 117-144): greedy set
cover over the catalog (an insertion-ordered association list mirroring
the Python dict), run with fuel `|catalog|`. -/
def find_min_entity_needed (catalog : List (Nat × List Nat)) : Option (List Nat) :=
  greedyAux (unionMats catalog) catalog.length catalog ∅ []

/-- The material set of one catalog entity, looked up by id (used to state
coverage of the selected entities). -/
def materialsOf (catalog : List (Nat × List Nat)) (e : Nat) : Finset Nat :=
  ((catalog.find? (fun p => p.1 == e)).map (fun p => p.2.toFinset)).getD ∅

/-- Union of the material sets of a list of selected entities. -/
def unionSelected (catalog : List (Nat × List Nat)) (sel : List Nat) : Finset Nat :=
  sel.foldl (fun acc e => acc ∪ materialsOf catalog e) ∅

/-- The `data` object of a parsed remote response: the optional
`HasUserInfo` field plus the remaining payload (opaque to `_req`). -/
structure RespData (α : Type) where
  hasUserInfo : Option Bool
  payload : α
  deriving Repr, DecidableEq

/-- A parsed remote response body: `retcode`, `message`, `data`. -/
structure ApiResponse (α : Type) where
  retcode : Int
  message : String
  data : RespData α
  deriving Repr, DecidableEq

/-- The single error type raised by `_req`: `HoyoLabException(msg)`. -/
inductive ReqError where
  | hoyoLabException (msg : String)
  deriving Repr, DecidableEq

/-- The response handling of `HoyoLab._req` (source lines 61-66): raise
`HoyoLabException(data["message"])` on non-zero retcode, else raise the
fixed invalid-identity message when `HasUserInfo` is present and falsy,
else return `data["data"]` unchanged.  (The HTTP transport and
`raise_for_status` are external collaborators, out of scope.) -/
def req_handle {α : Type} (r : ApiResponse α) : Except ReqError (RespData α) :=
  if r.retcode ≠ 0 then Except.error (ReqError.hoyoLabException r.message)
  else if r.data.hasUserInfo = some false then
    Except.error (ReqError.hoyoLabException "Either the UID or Cookies are invalid.")
  else Except.ok r.data

/-- The per-entry data preserved by redistribution: key, `good`, `id`,
`extra` (everything except `num`). -/
def itemShape (p : String × Item) : String × String × Nat × Nat :=
  (p.1, p.2.good, p.2.id, p.2.extra)

/-- Invariant of the redistribution walk: whenever the cache holds an
index, that index's item currently has zero extra. -/
def CacheOk (m : GoodMap) (chain : List String) (cache : Option Nat) : Prop :=
  ∀ j, cache = some j → extraOf m (chain.getD j "") = 0

/-- Concrete chain map with two consecutive surplus items (A and B carry
extra, C has none): exercises the cache across source positions. -/
def exampleChainMap : GoodMap :=
  [("A", ⟨"A", 104310, 1, 10⟩), ("B", ⟨"B", 104311, 1, 10⟩), ("C", ⟨"C", 104312, 0, 10⟩)]

/-- The spec's concrete 3-chain in ascending-id order:
A(extra 30, num 100), B(extra 0, num 50), C(extra 0, num 20). -/
def specChainMap : GoodMap :=
  [("A", ⟨"A", 104310, 30, 100⟩), ("B", ⟨"B", 104311, 0, 50⟩), ("C", ⟨"C", 104312, 0, 20⟩)]

/-- Small map for the frame-property witness: only B is an adjustment
target of the chain `["A", "B"]`. -/
def frameExampleMap : GoodMap :=
  [("A", ⟨"A", 1, 1, 5⟩), ("B", ⟨"B", 2, 0, 7⟩)]

/-- First record of the negative-num input: a tier-3 material with a
large surplus. -/
def negRecordA : RawMaterial :=
  { name := "Aaa", id := 104310, num := 0, lack_num := 0, extra := 100 }

/-- Second record of the negative-num input: the next tier-3 rarity with
a small `num` and no surplus. -/
def negRecordB : RawMaterial :=
  { name := "Bbb", id := 104311, num := 5, lack_num := 0, extra := 0 }

/-! ### Redistribution lemmas -/

theorem find?_map_keyfix (f : String × Item → String × Item)
    (hf : ∀ p, (f p).1 = p.1) (m : GoodMap) (k : String) :
    (m.map f).find? (fun p => p.1 = k) = (m.find? (fun p => p.1 = k)).map f := by
  induction m with
  | nil => rfl
  | cons p t ih =>
    simp only [List.map_cons, List.find?_cons]
    have hd : (decide ((f p).1 = k)) = (decide (p.1 = k)) := by rw [hf]
    rw [hd]
    cases hc : decide (p.1 = k) with
    | true => simp
    | false => simpa using ih

theorem adjustNum_keyfix (k : String) (d : Int) :
    ∀ p : String × Item,
      ((fun p => if p.1 = k then (p.1, { p.2 with num := p.2.num - d }) else p) p).1 =
        p.1 := by
  intro p
  by_cases h : p.1 = k <;> simp [h]

theorem extraOf_adjustNum (m : GoodMap) (k k' : String) (d : Int) :
    extraOf (adjustNum m k d) k' = extraOf m k' := by
  unfold extraOf lookupItem adjustNum
  rw [find?_map_keyfix _ (adjustNum_keyfix k d)]
  cases m.find? (fun p => p.1 = k') with
  | none => rfl
  | some p => by_cases h : p.1 = k <;> simp [h]

theorem lookupItem_adjustNum_ne (m : GoodMap) (k k' : String) (d : Int)
    (h : k' ≠ k) : lookupItem (adjustNum m k d) k' = lookupItem m k' := by
  unfold lookupItem adjustNum
  rw [find?_map_keyfix _ (adjustNum_keyfix k d)]
  cases hf : m.find? (fun p => p.1 = k') with
  | none => rfl
  | some p =>
    have hp : p.1 = k' := by simpa using List.find?_some hf
    have hpk : ¬ p.1 = k := fun hh => h (hp ▸ hh ▸ rfl)
    simp [hpk]

theorem shape_adjustNum (m : GoodMap) (k : String) (d : Int) :
    (adjustNum m k d).map itemShape = m.map itemShape := by
  simp only [adjustNum, List.map_map]
  apply List.map_congr_left
  intro p _
  by_cases h : p.1 = k <;> simp [itemShape, h]

theorem findZeroExtra_some (m : GoodMap) :
    ∀ (l : List String) (base j : Nat), findZeroExtra m base l = some j →
      base ≤ j ∧ j - base < l.length ∧ extraOf m (l.getD (j - base) "") = 0 := by
  intro l
  induction l with
  | nil => intro base j h; simp [findZeroExtra] at h
  | cons name rest ih =>
    intro base j h
    simp only [findZeroExtra] at h
    split at h
    · rename_i hz
      cases h
      refine ⟨Nat.le_refl _, by simp, ?_⟩
      simpa using hz
    · obtain ⟨h1, h2, h3⟩ := ih (base + 1) j h
      refine ⟨by omega, by simp only [List.length_cons]; omega, ?_⟩
      have hj : j - base = (j - (base + 1)) + 1 := by omega
      rw [hj]
      simpa using h3

theorem scanForward_extra (m : GoodMap) (chain : List String) (start j : Nat)
    (h : scanForward m chain start = some j) :
    extraOf m (chain.getD j "") = 0 := by
  obtain ⟨h1, h2, h3⟩ := findZeroExtra_some m (chain.drop start) start j h
  rw [List.getD_eq_getElem?_getD] at h3 ⊢
  rw [List.getElem?_drop] at h3
  have : start + (j - start) = j := by omega
  rwa [this] at h3

theorem cacheIsStale_of_cacheOk (m : GoodMap) (chain : List String)
    (cache : Option Nat) (hc : CacheOk m chain cache) :
    cacheIsStale m chain cache = true := by
  cases cache with
  | none => rfl
  | some j => simpa [cacheIsStale] using hc j rfl

theorem stepPos_spec (m : GoodMap) (chain : List String) (cache : Option Nat)
    (ci : Nat) (name : String) (hc : CacheOk m chain cache) :
    CacheOk (stepPos m chain cache ci name).1 chain
        (stepPos m chain cache ci name).2.1 ∧
      (∀ ev, (stepPos m chain cache ci name).2.2 = some ev →
        ev.recomputed = true) ∧
      (∀ k, extraOf (stepPos m chain cache ci name).1 k = extraOf m k) := by
  unfold stepPos
  by_cases hx : 0 < extraOf m name
  · have hst : cacheIsStale m chain cache = true := cacheIsStale_of_cacheOk m chain cache hc
    simp only [hx, if_pos, hst, if_true]
    cases hscan : scanForward m chain (ci + 1) with
    | none =>
      refine ⟨?_, ?_, ?_⟩
      · intro j hj; simp [hscan] at hj
      · intro ev hev
        simp only [hscan] at hev
        cases hev
        simp
      · intro k; simp [hscan]
    | some nvi =>
      refine ⟨?_, ?_, ?_⟩
      · intro j hj
        simp only [hscan] at hj
        injection hj with hj
        subst hj
        rw [extraOf_adjustNum]
        exact scanForward_extra m chain (ci + 1) _ hscan
      · intro ev hev
        simp only [hscan] at hev
        cases hev
        simp
      · intro k; simp [hscan, extraOf_adjustNum]
  · simp only [if_neg hx]
    refine ⟨hc, ?_, fun _ => trivial⟩
    intro ev hev
    simp at hev

theorem processPositions_spec (chain : List String) :
    ∀ (rest : List String) (m : GoodMap) (cache : Option Nat) (ci : Nat),
      CacheOk m chain cache →
      (∀ ev ∈ (processPositions chain m cache ci rest).2, ev.recomputed = true) ∧
        (∀ k, extraOf (processPositions chain m cache ci rest).1 k = extraOf m k) := by
  intro rest
  induction rest with
  | nil => intro m cache ci _; exact ⟨by intro ev hev; simp [processPositions] at hev, fun k => rfl⟩
  | cons name tail ih =>
    intro m cache ci hc
    obtain ⟨hcs, hevs, hext⟩ := stepPos_spec m chain cache ci name hc
    obtain ⟨ih1, ih2⟩ :=
      ih (stepPos m chain cache ci name).1 (stepPos m chain cache ci name).2.1 (ci + 1) hcs
    constructor
    · intro ev hev
      simp only [processPositions, List.mem_append, Option.mem_toList] at hev
      rcases hev with hev | hev
      · exact hevs ev (by simpa using hev)
      · exact ih1 ev hev
    · intro k
      simp only [processPositions]
      rw [ih2 k, hext k]

theorem processChain_spec (m : GoodMap) (chain : List String) :
    (∀ ev ∈ (processChain m chain).2, ev.recomputed = true) ∧
      (∀ k, extraOf (processChain m chain).1 k = extraOf m k) :=
  processPositions_spec chain chain m none 0 (by intro j hj; cases hj)

theorem processChains_recomputed (chains : List (List String)) :
    ∀ (m : GoodMap) (acc : List RedistEvent),
      (∀ ev ∈ acc, ev.recomputed = true) →
      ∀ ev ∈ (processChains chains (m, acc)).2, ev.recomputed = true := by
  induction chains with
  | nil => intro m acc hacc ev hev; exact hacc ev hev
  | cons chain rest ih =>
    intro m acc hacc ev hev
    simp only [processChains, List.foldl_cons] at hev
    refine ih (processChain m chain).1 (acc ++ (processChain m chain).2) ?_ ev hev
    intro e he
    rcases List.mem_append.mp he with he | he
    · exact hacc e he
    · exact (processChain_spec m chain).1 e he

theorem stepPos_frame (m : GoodMap) (chain : List String) (cache : Option Nat)
    (ci : Nat) (name : String) :
    (stepPos m chain cache ci name).1.map itemShape = m.map itemShape ∧
      ∀ k, (∀ ev, (stepPos m chain cache ci name).2.2 = some ev →
          ev.target ≠ some k) →
        lookupItem (stepPos m chain cache ci name).1 k = lookupItem m k := by
  unfold stepPos
  by_cases hx : 0 < extraOf m name
  · simp only [if_pos hx]
    cases hscan : (if cacheIsStale m chain cache = true
        then scanForward m chain (ci + 1) else cache) with
    | none => exact ⟨rfl, fun k _ => rfl⟩
    | some nvi =>
      constructor
      · exact shape_adjustNum m _ _
      · intro k hk
        have hno : ¬ (some (chain.getD nvi "") = some k) := hk _ rfl
        have hne : ¬ (chain.getD nvi "" = k) := fun hEq => hno (congrArg some hEq)
        exact lookupItem_adjustNum_ne m _ k _ (fun hh => hne hh.symm)
  · simp [if_neg hx]

theorem processPositions_frame (chain : List String) :
    ∀ (rest : List String) (m : GoodMap) (cache : Option Nat) (ci : Nat),
      (processPositions chain m cache ci rest).1.map itemShape = m.map itemShape ∧
        ∀ k, k ∉ targetsOf (processPositions chain m cache ci rest).2 →
          lookupItem (processPositions chain m cache ci rest).1 k =
            lookupItem m k := by
  intro rest
  induction rest with
  | nil => intro m cache ci; exact ⟨rfl, fun k _ => rfl⟩
  | cons name tail ih =>
    intro m cache ci
    obtain ⟨hsh, hlk⟩ := stepPos_frame m chain cache ci name
    obtain ⟨ih1, ih2⟩ :=
      ih (stepPos m chain cache ci name).1 (stepPos m chain cache ci name).2.1 (ci + 1)
    constructor
    · simp only [processPositions]
      rw [ih1, hsh]
    · intro k hk
      simp only [processPositions, targetsOf, List.filterMap_append] at hk
      rw [List.mem_append] at hk
      push_neg at hk
      obtain ⟨hk1, hk2⟩ := hk
      simp only [processPositions]
      rw [ih2 k hk2]
      refine hlk k ?_
      intro ev hev hevt
      refine hk1 ?_
      simp only [hev, Option.toList_some, List.filterMap_cons, hevt]
      simp

theorem processChain_frame (m : GoodMap) (chain : List String) :
    (processChain m chain).1.map itemShape = m.map itemShape ∧
      ∀ k, k ∉ targetsOf (processChain m chain).2 →
        lookupItem (processChain m chain).1 k = lookupItem m k :=
  processPositions_frame chain chain m none 0

theorem processChains_trace_prefix (chains : List (List String)) :
    ∀ (m : GoodMap) (acc : List RedistEvent),
      ∃ tail, (processChains chains (m, acc)).2 = acc ++ tail := by
  induction chains with
  | nil => intro m acc; exact ⟨[], by simp [processChains]⟩
  | cons chain rest ih =>
    intro m acc
    simp only [processChains, List.foldl_cons]
    obtain ⟨tail, htail⟩ := ih (processChain m chain).1 (acc ++ (processChain m chain).2)
    exact ⟨(processChain m chain).2 ++ tail, by
      simp only [processChains] at htail
      rw [htail, List.append_assoc]⟩

theorem processChains_frame (chains : List (List String)) :
    ∀ (m : GoodMap) (acc : List RedistEvent),
      (processChains chains (m, acc)).1.map itemShape = m.map itemShape ∧
        ∀ k, k ∉ targetsOf (processChains chains (m, acc)).2 →
          lookupItem (processChains chains (m, acc)).1 k = lookupItem m k := by
  induction chains with
  | nil => intro m acc; exact ⟨rfl, fun k _ => rfl⟩
  | cons chain rest ih =>
    intro m acc
    simp only [processChains, List.foldl_cons]
    obtain ⟨hsh, hlk⟩ := processChain_frame m chain
    obtain ⟨ih1, ih2⟩ := ih (processChain m chain).1 (acc ++ (processChain m chain).2)
    constructor
    · simp only [processChains] at ih1
      rw [ih1, hsh]
    · intro k hk
      simp only [processChains] at ih2 hk
      rw [ih2 k hk]
      refine hlk k ?_
      intro hmem
      obtain ⟨tail, htail⟩ :=
        processChains_trace_prefix rest (processChain m chain).1
          (acc ++ (processChain m chain).2)
      simp only [processChains] at htail
      refine hk ?_
      rw [htail]
      simp only [targetsOf, List.filterMap_append, List.mem_append]
      left; right
      simpa [targetsOf] using hmem

/-! ### Normalization lemmas -/

theorem dropWhile_eq_self_of_none (p : Char → Bool) :
    ∀ (l : List Char), (∀ c ∈ l, p c = false) → l.dropWhile p = l := by
  intro l h
  cases l with
  | nil => rfl
  | cons a t => simp [List.dropWhile_cons, h a (by simp)]

theorem stripChar_eq_self (c : Char) (l : List Char) (h : ∀ x ∈ l, ¬ x = c) :
    stripChar c l = l := by
  unfold stripChar
  rw [dropWhile_eq_self_of_none _ l (fun x hx => by simp [h x hx])]
  rw [dropWhile_eq_self_of_none _ l.reverse
    (fun x hx => by simp [h x (List.mem_reverse.mp hx)])]
  exact List.reverse_reverse l

theorem splitOnSep_eq_single (l : List Char) (h : ∀ c ∈ l, isSep c = false) :
    splitOnSep l = [l] := by
  induction l with
  | nil => rfl
  | cons c cs ih =>
    have hc : isSep c = false := h c (by simp)
    have ih' := ih (fun x hx => h x (by simp [hx]))
    simp only [splitOnSep, hc]
    rw [ih']
    rfl

theorem intercalate_single (x : List Char) : List.intercalate [' '] [x] = x := by
  simp [List.intercalate]

theorem normalizeName_wordchars (l : List Char) :
    ∀ c ∈ normalizeName l, isWordChar c = true := by
  intro c hc
  exact (List.mem_filter.mp hc).2

/-! ### Request-list length lemmas -/

theorem length_flatMap_replicate {α β : Type} (l : List α) (count : Nat)
    (f : α → β) :
    (l.flatMap (fun a => List.replicate count (f a))).length = l.length * count := by
  induction l with
  | nil => simp
  | cons a t ih => simp [ih, Nat.succ_mul, Nat.add_comm]

/-! ### Claim theorems -/

/-- C3, counterexample.  The normalization of `clean_up_materials` is not
idempotent: `"Damaged Mask"` normalizes to `"DamagedMask"`, but
re-normalizing gives `"Damagedmask"` because Python's `str.capitalize`
lowercases everything after the first character of the (now single) word. -/
theorem c3_normalize_idempotent_counterexample :
    normalizeNameStr (normalizeNameStr "Damaged Mask") ≠
      normalizeNameStr "Damaged Mask" := by
  decide

/-- C3, amended.  Re-normalizing an already-normalized name is not a
no-op in general: the normalized name contains no quote, dash or space,
so the second pass treats it as one single word and applies
`str.capitalize` to it (then the non-word filter).  Hence
`normalize (normalize x) = filter-word-chars (capitalize (normalize x))`,
which lowercases every letter after the first; idempotence fails for any
name whose normalized form has an uppercase letter beyond position 0. -/
theorem c3_normalize_idempotent_amended (s : String) :
    normalizeNameStr (normalizeNameStr s) =
      String.mk ((pyCapitalize (normalizeName s.data)).filter isWordChar) := by
  unfold normalizeNameStr
  apply congrArg String.mk
  show normalizeName (normalizeName s.data) =
    (pyCapitalize (normalizeName s.data)).filter isWordChar
  have hw : ∀ c ∈ normalizeName s.data, isWordChar c = true :=
    normalizeName_wordchars s.data
  have hq : ∀ c ∈ normalizeName s.data, ¬ c = '"' := by
    intro c hc hEq
    have hwc := hw c hc
    rw [hEq] at hwc
    exact absurd hwc (by decide)
  have hs : ∀ c ∈ normalizeName s.data, isSep c = false := by
    intro c hc
    have hwc := hw c hc
    cases hsep : isSep c
    · rfl
    · exfalso
      rcases (by simpa [isSep] using hsep : c = '-' ∨ c = ' ') with h | h <;>
        (rw [h] at hwc; exact absurd hwc (by decide))
  conv_lhs => rw [normalizeName]
  rw [stripChar_eq_self _ _ hq, splitOnSep_eq_single _ hs]
  simp only [List.map_cons, List.map_nil]
  rw [intercalate_single]

/-- C1, counterexample.  The claim says the cached `next_valid_index` is
recomputed only when the previously cached valid index's item now has
non-zero extra.  On the chain `["A", "B", "C"]` with extras `1, 1, 0`,
the source at position 1 triggers a recomputation even though the cached
index 2 still has `extra == 0` (the code's condition at line 229 fires on
a zero-extra cache, not a non-zero one), refuting the claim. -/
theorem c1_cached_search_counterexample :
    ¬ (∀ ev ∈ (process_item_iterative [["A", "B", "C"]] exampleChainMap).2,
        ev.recomputed = true →
          ev.cacheBefore = none ∨ ev.cachedExtraBefore ≠ some 0) := by
  decide

/-- C1, amended.  In `process_item_iterative` the forward search for a
zero-extra target is recomputed at every source with positive extra: the
code recomputes when the cache is unset or the cached item's extra is
zero, and since redistribution never modifies any `extra` field a cached
index always points at a zero-extra item, so the cached value is never
reused and every search restarts from `current_index + 1`. -/
theorem c1_cached_search_amended (chains : List (List String)) (m : GoodMap) :
    ∀ ev ∈ (process_item_iterative chains m).2, ev.recomputed = true := by
  intro ev hev
  unfold process_item_iterative at hev
  exact processChains_recomputed chains m [] (fun e he => nomatch he) ev hev

/-- Witness for the amended C1 theorem at a concrete chain and map. -/
theorem c1_cached_search_amended_witness :
    ({ ci := 1, cacheBefore := some 2, cachedExtraBefore := some 0,
       recomputed := true, target := some "C" } : RedistEvent).recomputed = true :=
  c1_cached_search_amended [["A", "B", "C"]] exampleChainMap _ (by decide)

/-- C7.  On the spec's concrete 3-chain `[A(extra 30, num 100),
B(extra 0, num 50), C(extra 0, num 20)]` in ascending-id order, the only
redistribution event is at position 0 with target B (distance 1, so the
adjustment factor is `3 ^ 1 = 3`), B's `num` becomes `50 - 30 / 3 = 40`,
and A's and C's `num` are unchanged. -/
theorem c7_redistribution_example :
    (process_item_iterative [["A", "B", "C"]] specChainMap).2 =
        [{ ci := 0, cacheBefore := none, cachedExtraBefore := none,
           recomputed := true, target := some "B" }] ∧
      (lookupItem (process_item_iterative [["A", "B", "C"]] specChainMap).1 "B").map
          Item.num = some 40 ∧
      (lookupItem (process_item_iterative [["A", "B", "C"]] specChainMap).1 "A").map
          Item.num = some 100 ∧
      (lookupItem (process_item_iterative [["A", "B", "C"]] specChainMap).1 "C").map
          Item.num = some 20 := by
  decide

/-- C9.  `process_item_iterative` mutates only the `num` field of items
chosen as adjustment targets: the key sequence and every item's `good`,
`id` and `extra` fields are unchanged (first conjunct, which also fixes
the key set), and any entry whose key is never an adjustment target is
fully unchanged, `num` included (second conjunct). -/
theorem c9_process_frame (chains : List (List String)) (m : GoodMap)
    (name : String)
    (h : name ∉ targetsOf (process_item_iterative chains m).2) :
    (process_item_iterative chains m).1.map itemShape = m.map itemShape ∧
      lookupItem (process_item_iterative chains m).1 name = lookupItem m name := by
  unfold process_item_iterative at *
  obtain ⟨h1, h2⟩ := processChains_frame chains m []
  exact ⟨h1, h2 name h⟩

/-- Witness for C9 at a concrete run: "A" is never an adjustment target
of the chain `["A", "B"]`, so its entry is unchanged. -/
theorem c9_process_frame_witness :
    lookupItem (process_item_iterative [["A", "B"]] frameExampleMap).1 "A" =
      lookupItem frameExampleMap "A" :=
  (c9_process_frame [["A", "B"]] frameExampleMap "A" (by decide)).2

/-- C2, counterexample.  The claimed general law
`len = count * max(num_chars, num_weapons) + count * |num_chars - num_weapons|`
fails when the weapons outnumber the characters: with 0 selected
characters, 1 selected weapon and `count = 1` the code builds 1 request,
the formula predicts 2.  (The tail-duplication that makes the `+ diff`
term true only happens in the `len_avatars > len_weapons` branch.) -/
theorem c2_request_list_length_counterexample :
    (calculate_list [] [7] 1).length ≠
      1 * max (List.length ([] : List Nat)) (List.length [7]) +
        1 * ((List.length ([] : List Nat) : Int) - List.length [7]).natAbs := by
  decide

/-- C2, amended.  The combined request list has length
`count * max(num_chars, num_weapons) + count * (num_chars - num_weapons)`
with truncated subtraction: when characters are more numerous their
unpaired tail is appended a second time (it is already contained in
`avatar_body`), adding `count * (num_chars - num_weapons)`; when weapons
are at least as numerous the weapon tail is appended once and the total
is exactly `count * num_weapons`. -/
theorem c2_request_list_length_amended
    (avatars_to_select weapons_to_select : List Nat) (count : Nat) :
    (calculate_list avatars_to_select weapons_to_select count).length =
      count * max avatars_to_select.length weapons_to_select.length +
        count * (avatars_to_select.length - weapons_to_select.length) := by
  have hA := length_flatMap_replicate avatars_to_select count
    (fun a => ({ avatar_id := a, weapon := none } : AvatarReq))
  have hW := length_flatMap_replicate weapons_to_select count
    (fun w => ({ weapon_id := w } : WeaponReq))
  simp only [calculate_list]
  split
  case isTrue h =>
    simp only [List.length_append, List.length_map, List.length_zipWith,
      List.length_drop, hA, hW] at h ⊢
    have haw : weapons_to_select.length ≤ avatars_to_select.length := by
      by_contra hc
      push_neg at hc
      exact Nat.lt_irrefl _
        (Nat.lt_of_lt_of_le h (Nat.mul_le_mul_right count (Nat.le_of_lt hc)))
    rw [Nat.max_eq_left haw, Nat.mul_sub_left_distrib]
    rw [Nat.mul_comm count avatars_to_select.length,
      Nat.mul_comm count weapons_to_select.length]
    rw [Nat.min_eq_right (Nat.le_of_lt h)]
    omega
  case isFalse h =>
    simp only [List.length_append, List.length_map, List.length_zipWith,
      List.length_drop, hA, hW] at h ⊢
    push_neg at h
    by_cases haw : avatars_to_select.length ≤ weapons_to_select.length
    · rw [Nat.max_eq_right haw, Nat.sub_eq_zero_of_le haw, Nat.mul_zero]
      rw [Nat.mul_comm count weapons_to_select.length]
      rw [Nat.min_eq_left h]
      omega
    · push_neg at haw
      have hc0 : count = 0 := by
        by_contra hc
        have hlt : weapons_to_select.length * count < avatars_to_select.length * count :=
          Nat.mul_lt_mul_of_lt_of_le haw (Nat.le_refl count) (Nat.pos_of_ne_zero hc)
        omega
      subst hc0
      simp

/-- C6.  The tier classification of `clean_up_materials` is exactly the
closed table: tier 4 iff `id > 114000` or `104100 < id < 104300`; tier 3
iff `104300 < id < 113000` and `id ≠ 104319`; every other id — in
particular `104319` (Crown of Insight) — is untiered and therefore never
enters a redistribution chain. -/
theorem c6_tier_classification (id : Nat) :
    (tierOf id = some 4 ↔ (114000 < id ∨ (104100 < id ∧ id < 104300))) ∧
      (tierOf id = some 3 ↔ (104300 < id ∧ id < 113000 ∧ id ≠ 104319)) ∧
      (tierOf id = none ↔
        ¬ ((114000 < id ∨ (104100 < id ∧ id < 104300)) ∨
          (104300 < id ∧ id < 113000 ∧ id ≠ 104319))) ∧
      tierOf 104319 = none := by
  unfold tierOf
  by_cases h1 : 114000 < id ∨ (104100 < id ∧ id < 104300)
  · rw [if_pos h1]
    refine ⟨by simp [h1], by simp; omega, by simp [h1], by decide⟩
  · rw [if_neg h1]
    by_cases h2 : 104300 < id ∧ id < 113000 ∧ id ≠ 104319
    · rw [if_pos h2]
      refine ⟨by simp [h1], by simp [h2], by simp [h2], by decide⟩
    · rw [if_neg h2]
      refine ⟨by simp [h1], by simp [h2], by simp [h1, h2], by decide⟩

/-- C8.  The response handling of `_req` raises iff the parsed response
has a non-zero retcode (generic remote failure, carrying the remote
message) or a zero retcode with a `HasUserInfo` field present and false
(invalid credentials, carrying the fixed distinguishing message);
otherwise it returns the response's `data` unchanged.  Both failures use
the single error type `HoyoLabException`, distinguished by message. -/
theorem c8_req_error_handling {α : Type} (r : ApiResponse α) :
    ((∃ e, req_handle r = Except.error e) ↔
        (r.retcode ≠ 0 ∨ (r.retcode = 0 ∧ r.data.hasUserInfo = some false))) ∧
      (r.retcode ≠ 0 →
        req_handle r = Except.error (ReqError.hoyoLabException r.message)) ∧
      ((r.retcode = 0 ∧ r.data.hasUserInfo = some false) →
        req_handle r = Except.error
          (ReqError.hoyoLabException "Either the UID or Cookies are invalid.")) ∧
      ((r.retcode = 0 ∧ r.data.hasUserInfo ≠ some false) →
        req_handle r = Except.ok r.data) := by
  unfold req_handle
  by_cases h1 : r.retcode ≠ 0
  · rw [if_pos h1]
    refine ⟨⟨fun _ => Or.inl h1, fun _ => ⟨_, rfl⟩⟩, fun _ => rfl, ?_, ?_⟩
    · rintro ⟨h2, -⟩
      exact absurd h2 h1
    · rintro ⟨h2, -⟩
      exact absurd h2 h1
  · rw [if_neg h1]
    push_neg at h1
    by_cases h2 : r.data.hasUserInfo = some false
    · rw [if_pos h2]
      refine ⟨⟨fun _ => Or.inr ⟨h1, h2⟩, fun _ => ⟨_, rfl⟩⟩,
        fun hne => absurd h1 hne, fun _ => rfl, ?_⟩
      rintro ⟨-, hne⟩
      exact absurd h2 hne
    · rw [if_neg h2]
      refine ⟨⟨?_, ?_⟩, fun hne => absurd h1 hne, ?_, fun _ => rfl⟩
      · rintro ⟨e, he⟩
        cases he
      · rintro (hne | ⟨-, hf⟩)
        · exact absurd h1 hne
        · exact absurd hf h2
      · rintro ⟨-, hf⟩
        exact absurd hf h2

/-- C10.  `num` is not clamped at zero during redistribution: for the
two tier-3 records `negRecordA` (id 104310, surplus 100) and `negRecordB`
(id 104311, num 5, no surplus), `clean_up_materials` forms the chain
`["Aaa", "Bbb"]` and decrements Bbb's num by `100 / 3 = 33`, leaving the
negative count `5 - 33 = -28` in the returned mapping — which `dump_good`
would export as a negative material count. -/
theorem c10_negative_num :
    (lookupItem (clean_up_materials [negRecordA, negRecordB]) "Bbb").map Item.num =
        some (-28) ∧
      (lookupItem (clean_up_materials [negRecordA, negRecordB]) "Bbb").all
        (fun it => it.num < 0) = true := by
  decide

/-! ### Greedy set-cover lemmas -/

theorem selectStep_card_le (covered : Finset Nat) (best : Option Nat × Finset Nat)
    (p : Nat × List Nat) : best.2.card ≤ (selectStep covered best p).2.card := by
  show best.2.card ≤
    (if best.2.card < (p.2.toFinset \ covered).card
      then ((some p.1, p.2.toFinset \ covered) : Option Nat × Finset Nat)
      else best).2.card
  by_cases h : best.2.card < (p.2.toFinset \ covered).card
  · rw [if_pos h]
    exact Nat.le_of_lt h
  · rw [if_neg h]

theorem selectFold_card_mono (covered : Finset Nat) :
    ∀ (l : List (Nat × List Nat)) (acc : Option Nat × Finset Nat),
      acc.2.card ≤ (l.foldl (selectStep covered) acc).2.card := by
  intro l
  induction l with
  | nil => intro acc; exact Nat.le_refl _
  | cons p t ih =>
    intro acc
    exact Nat.le_trans (selectStep_card_le covered acc p) (ih (selectStep covered acc p))

theorem selectFold_form (covered : Finset Nat) :
    ∀ (l : List (Nat × List Nat)) (acc : Option Nat × Finset Nat),
      l.foldl (selectStep covered) acc = acc ∨
        ∃ e mats, (e, mats) ∈ l ∧
          l.foldl (selectStep covered) acc = (some e, mats.toFinset \ covered) := by
  intro l
  induction l with
  | nil => intro acc; exact Or.inl rfl
  | cons p t ih =>
    intro acc
    rcases ih (selectStep covered acc p) with h | ⟨e, mats, hmem, heq⟩
    · by_cases hc : acc.2.card < (p.2.toFinset \ covered).card
      · right
        refine ⟨p.1, p.2, by rw [Prod.mk.eta]; exact List.mem_cons_self p t, ?_⟩
        rw [List.foldl_cons, h]
        show (if acc.2.card < (p.2.toFinset \ covered).card
          then ((some p.1, p.2.toFinset \ covered) : Option Nat × Finset Nat)
          else acc) = _
        rw [if_pos hc]
      · left
        rw [List.foldl_cons, h]
        show (if acc.2.card < (p.2.toFinset \ covered).card
          then ((some p.1, p.2.toFinset \ covered) : Option Nat × Finset Nat)
          else acc) = _
        rw [if_neg hc]
    · exact Or.inr ⟨e, mats, List.mem_cons_of_mem p hmem, by rw [List.foldl_cons]; exact heq⟩

theorem selectFold_card_ge (covered : Finset Nat) :
    ∀ (l : List (Nat × List Nat)) (acc : Option Nat × Finset Nat)
      (p : Nat × List Nat), p ∈ l →
      (p.2.toFinset \ covered).card ≤ (l.foldl (selectStep covered) acc).2.card := by
  intro l
  induction l with
  | nil => intro acc p hp; cases hp
  | cons q t ih =>
    intro acc p hp
    rcases List.mem_cons.mp hp with h | h
    · subst h
      rw [List.foldl_cons]
      refine Nat.le_trans ?_ (selectFold_card_mono covered t (selectStep covered acc p))
      show _ ≤ (if acc.2.card < (p.2.toFinset \ covered).card
        then ((some p.1, p.2.toFinset \ covered) : Option Nat × Finset Nat)
        else acc).2.card
      by_cases hc : acc.2.card < (p.2.toFinset \ covered).card
      · rw [if_pos hc]
      · rw [if_neg hc]
        omega
    · rw [List.foldl_cons]
      exact ih (selectStep covered acc q) p h

theorem selectBest_found (covered : Finset Nat) (remaining : List (Nat × List Nat))
    (p : Nat × List Nat) (hp : p ∈ remaining)
    (hpos : 0 < (p.2.toFinset \ covered).card) :
    ∃ e mats, (e, mats) ∈ remaining ∧
      selectBest covered remaining = (some e, mats.toFinset \ covered) ∧
      0 < (mats.toFinset \ covered).card := by
  have hcard := selectFold_card_ge covered remaining (none, ∅) p hp
  rcases selectFold_form covered remaining (none, ∅) with h | ⟨e, mats, hmem, heq⟩
  · exfalso
    rw [h] at hcard
    exact Nat.lt_irrefl 0 (Nat.lt_of_lt_of_le hpos hcard)
  · refine ⟨e, mats, hmem, heq, ?_⟩
    rw [heq] at hcard
    exact Nat.lt_of_lt_of_le hpos hcard

theorem mem_unionMats_foldl (l : List (Nat × List Nat)) :
    ∀ (acc : Finset Nat) (x : Nat),
      x ∈ l.foldl (fun acc p => acc ∪ p.2.toFinset) acc ↔
        x ∈ acc ∨ ∃ p ∈ l, x ∈ p.2.toFinset := by
  induction l with
  | nil => intro acc x; simp
  | cons q t ih =>
    intro acc x
    rw [List.foldl_cons, ih]
    constructor
    · rintro (h | ⟨p, hp, hx⟩)
      · rcases Finset.mem_union.mp h with h | h
        · exact Or.inl h
        · exact Or.inr ⟨q, List.mem_cons_self q t, h⟩
      · exact Or.inr ⟨p, List.mem_cons_of_mem q hp, hx⟩
    · rintro (h | ⟨p, hp, hx⟩)
      · exact Or.inl (Finset.mem_union_left _ h)
      · rcases List.mem_cons.mp hp with h | h
        · subst h
          exact Or.inl (Finset.mem_union_right _ hx)
        · exact Or.inr ⟨p, h, hx⟩

theorem mem_unionMats (l : List (Nat × List Nat)) (x : Nat) :
    x ∈ unionMats l ↔ ∃ p ∈ l, x ∈ p.2.toFinset := by
  unfold unionMats
  rw [mem_unionMats_foldl]
  simp

theorem key_unique {l : List (Nat × List Nat)} (hnd : (l.map Prod.fst).Nodup)
    {e : Nat} {x y : List Nat} (hx : (e, x) ∈ l) (hy : (e, y) ∈ l) : x = y := by
  induction l with
  | nil => cases hx
  | cons q t ih =>
    simp only [List.map_cons, List.nodup_cons] at hnd
    rcases List.mem_cons.mp hx with h1 | h1 <;> rcases List.mem_cons.mp hy with h2 | h2
    · have h12 : (e, x) = (e, y) := h1.trans h2.symm
      injection h12
    · exfalso
      refine hnd.1 ?_
      have : (e, y).1 ∈ t.map Prod.fst := List.mem_map_of_mem Prod.fst h2
      rw [← h1]
      exact this
    · exfalso
      refine hnd.1 ?_
      have : (e, x).1 ∈ t.map Prod.fst := List.mem_map_of_mem Prod.fst h1
      rw [← h2]
      exact this
    · exact ih hnd.2 h1 h2

theorem find?_key_eq {l : List (Nat × List Nat)} (hnd : (l.map Prod.fst).Nodup)
    {e : Nat} {mats : List Nat} (hm : (e, mats) ∈ l) :
    l.find? (fun p => p.1 == e) = some (e, mats) := by
  induction l with
  | nil => cases hm
  | cons q t ih =>
    simp only [List.map_cons, List.nodup_cons] at hnd
    by_cases hq : q.1 = e
    · rw [List.find?_cons_of_pos _ (by simp [hq])]
      rcases List.mem_cons.mp hm with h | h
      · rw [← h]
      · exfalso
        refine hnd.1 ?_
        have : (e, mats).1 ∈ t.map Prod.fst := List.mem_map_of_mem Prod.fst h
        rw [hq]
        exact this
    · rw [List.find?_cons_of_neg _ (by simp [hq])]
      rcases List.mem_cons.mp hm with h | h
      · exact absurd (by rw [← h]) hq
      · exact ih hnd.2 h

theorem unionSelected_append_single (catalog : List (Nat × List Nat))
    (sel : List Nat) (e : Nat) :
    unionSelected catalog (sel ++ [e]) =
      unionSelected catalog sel ∪ materialsOf catalog e := by
  unfold unionSelected
  rw [List.foldl_append]
  rfl

theorem materialsOf_eq (catalog : List (Nat × List Nat)) (e : Nat)
    (mats : List Nat) (h : catalog.find? (fun p => p.1 == e) = some (e, mats)) :
    materialsOf catalog e = mats.toFinset := by
  unfold materialsOf
  rw [h]
  rfl

theorem greedyAux_spec (catalog : List (Nat × List Nat))
    (hnd : (catalog.map Prod.fst).Nodup) :
    ∀ (fuel : Nat) (remaining : List (Nat × List Nat)) (covered : Finset Nat)
      (selected : List Nat),
      remaining.Sublist catalog →
      remaining.length ≤ fuel →
      (∀ x ∈ unionMats catalog, x ∈ covered ∨ ∃ p ∈ remaining, x ∈ p.2.toFinset) →
      covered ⊆ unionMats catalog →
      covered = unionSelected catalog selected →
      ∃ sel,
        greedyAux (unionMats catalog) fuel remaining covered selected = some sel ∧
          unionSelected catalog sel = unionMats catalog := by
  intro fuel
  induction fuel with
  | zero =>
    intro remaining covered selected hsub hlen hH1 hH2 hH5
    have hrem : remaining = [] := List.length_eq_zero.mp (Nat.le_zero.mp hlen)
    subst hrem
    have hcov : covered = unionMats catalog := by
      apply Finset.Subset.antisymm hH2
      intro x hx
      rcases hH1 x hx with h | ⟨p, hp, _⟩
      · exact h
      · cases hp
    exact ⟨selected, by simp only [greedyAux, if_pos hcov], by rw [← hH5, hcov]⟩
  | succ fuel ih =>
    intro remaining covered selected hsub hlen hH1 hH2 hH5
    by_cases hcov : covered = unionMats catalog
    · exact ⟨selected, by simp only [greedyAux, if_pos hcov], by rw [← hH5, hcov]⟩
    · have hss : covered ⊂ unionMats catalog :=
        Finset.ssubset_iff_subset_ne.mpr ⟨hH2, hcov⟩
      obtain ⟨x, hxU, hxC⟩ := Finset.exists_of_ssubset hss
      rcases hH1 x hxU with h | ⟨p, hp, hxp⟩
      · exact absurd h hxC
      have hpos : 0 < (p.2.toFinset \ covered).card :=
        Finset.card_pos.mpr ⟨x, Finset.mem_sdiff.mpr ⟨hxp, hxC⟩⟩
      obtain ⟨e, mats, hmem, hsb, hcpos⟩ := selectBest_found covered remaining p hp hpos
      have hndRem : (remaining.map Prod.fst).Nodup :=
        List.Nodup.sublist (hsub.map Prod.fst) hnd
      have hpa : (fun q : Nat × List Nat => q.1 == e) (e, mats) = true := by simp
      obtain ⟨a', l₁, l₂, hl₁, hpa', hldec, herase⟩ :=
        @List.exists_of_eraseP _ (fun q => q.1 == e) _ _ hmem hpa
      have ha'1 : a'.1 = e := by simpa using hpa'
      have ha'mem : a' ∈ remaining := by
        rw [hldec]
        exact List.mem_append_right _ (List.mem_cons_self _ _)
      have ha'2 : a'.2 = mats := by
        have h1 : (e, a'.2) ∈ remaining := by
          rw [← ha'1, Prod.mk.eta]
          exact ha'mem
        exact key_unique hndRem h1 hmem
      have hlen' : (remaining.eraseP (fun q => q.1 == e)).length ≤ fuel := by
        rw [List.length_eraseP_of_mem hmem hpa]
        have : 0 < remaining.length := List.length_pos.mpr (List.ne_nil_of_mem hmem)
        omega
      have hsub' : (remaining.eraseP (fun q => q.1 == e)).Sublist catalog :=
        (List.eraseP_sublist remaining).trans hsub
      have hcovU : covered ∪ (mats.toFinset \ covered) = covered ∪ mats.toFinset :=
        Finset.union_sdiff_self_eq_union
      have hmatsCat : (e, mats) ∈ catalog := hsub.subset hmem
      have hfind : catalog.find? (fun p => p.1 == e) = some (e, mats) :=
        find?_key_eq hnd hmatsCat
      have hH5' : covered ∪ (mats.toFinset \ covered) =
          unionSelected catalog (selected ++ [e]) := by
        rw [unionSelected_append_single, ← hH5, hcovU, materialsOf_eq _ _ _ hfind]
      have hH2' : covered ∪ (mats.toFinset \ covered) ⊆ unionMats catalog := by
        rw [hcovU]
        refine Finset.union_subset hH2 ?_
        intro y hy
        exact (mem_unionMats catalog y).mpr ⟨(e, mats), hmatsCat, hy⟩
      have hH1' : ∀ y ∈ unionMats catalog,
          y ∈ covered ∪ (mats.toFinset \ covered) ∨
            ∃ q ∈ remaining.eraseP (fun q => q.1 == e), y ∈ q.2.toFinset := by
        intro y hy
        rcases hH1 y hy with h | ⟨q, hq, hyq⟩
        · exact Or.inl (Finset.mem_union_left _ h)
        · rw [hldec] at hq
          rcases List.mem_append.mp hq with hq | hq
          · refine Or.inr ⟨q, ?_, hyq⟩
            rw [herase]
            exact List.mem_append_left _ hq
          · rcases List.mem_cons.mp hq with hq | hq
            · subst hq
              left
              rw [hcovU]
              refine Finset.mem_union_right _ ?_
              rw [← ha'2]
              exact hyq
            · refine Or.inr ⟨q, ?_, hyq⟩
              rw [herase]
              exact List.mem_append_right _ hq
      obtain ⟨sel, hrun, hprop⟩ :=
        ih (remaining.eraseP (fun q => q.1 == e))
          (covered ∪ (mats.toFinset \ covered)) (selected ++ [e])
          hsub' hlen' hH1' hH2' hH5'
      refine ⟨sel, ?_, hprop⟩
      simp only [greedyAux, if_neg hcov]
      rw [hsb]
      exact hrun

/-- C4.  For every catalog with distinct entity ids (a Python dict
guarantees this), `find_min_entity_needed` succeeds and the union of the
selected entities' material sets equals the union of all material sets
in the catalog (coverage completeness). -/
theorem c4_selector_coverage (catalog : List (Nat × List Nat))
    (hnd : (catalog.map Prod.fst).Nodup) (sel : List Nat)
    (hsel : find_min_entity_needed catalog = some sel) :
    unionSelected catalog sel = unionMats catalog := by
  obtain ⟨sel', hrun, hprop⟩ :=
    greedyAux_spec catalog hnd catalog.length catalog ∅ []
      (List.Sublist.refl catalog) (Nat.le_refl _)
      (fun x hx => Or.inr ((mem_unionMats catalog x).mp hx))
      (Finset.empty_subset _) rfl
  unfold find_min_entity_needed at hsel
  rw [hsel] at hrun
  cases hrun
  exact hprop

/-- Witness for C4 on the spec's hand-crafted catalog
`{1 ↦ {1,2}, 2 ↦ {2,3}, 3 ↦ {1,3}}`, where the selector returns `[1, 2]`. -/
theorem c4_selector_coverage_witness :
    unionSelected [(1, [1, 2]), (2, [2, 3]), (3, [1, 3])] [1, 2] =
      unionMats [(1, [1, 2]), (2, [2, 3]), (3, [1, 3])] :=
  c4_selector_coverage [(1, [1, 2]), (2, [2, 3]), (3, [1, 3])] (by decide)
    [1, 2] (by decide)

/-- C5.  For every catalog with distinct entity ids, the greedy loop of
`find_min_entity_needed` terminates within `|catalog|` iterations: run
with fuel `|catalog|` it returns a result (so it never exhausts the fuel
and never reaches the `int(None)` failure).  Each iteration strictly
grows `covered` (the chosen candidate's new coverage is non-empty) and
removes the chosen entity from the pool, and while `covered` differs
from the universe some remaining candidate contributes an uncovered
material — these facts are the invariants of `greedyAux_spec`, from
which this theorem follows. -/
theorem c5_selector_terminates (catalog : List (Nat × List Nat))
    (hnd : (catalog.map Prod.fst).Nodup) :
    (find_min_entity_needed catalog).isSome := by
  obtain ⟨sel, hrun, _⟩ :=
    greedyAux_spec catalog hnd catalog.length catalog ∅ []
      (List.Sublist.refl catalog) (Nat.le_refl _)
      (fun x hx => Or.inr ((mem_unionMats catalog x).mp hx))
      (Finset.empty_subset _) rfl
  unfold find_min_entity_needed
  rw [hrun]
  rfl

/-- Witness for C5 at a concrete catalog. -/
theorem c5_selector_terminates_witness :
    (find_min_entity_needed [(10, [5, 6, 7]), (11, [5]), (12, [8])]).isSome :=
  c5_selector_terminates [(10, [5, 6, 7]), (11, [5]), (12, [8])] (by decide)

end GenshinMats
